import Mathlib

/-!
Verification development for the turtlefinder container-engine discovery
core (`package turtlefinder`, Go). The Go sources are shallowly embedded:

* Go strings become `List Char`; Go string slicing `s[a:]` that can go out of
  range is modelled by an `Option` result whose `none` value stands for the
  runtime panic Go raises on out-of-range slice bounds.
* Procfs reads and other external effects become explicit parameters (an
  `Option` directory listing, a readlink table, the lines of a file).
* The concurrent parts (the socket-activator tracker, the finder registry)
  become sequential transition systems that execute one interleaving of the
  mutex-serialized Go code; dispatch and insertion events are additionally
  recorded in ghost fields that do not influence behaviour.
-/

namespace Turtlefinder

/-! ## Go string primitives over `List Char` -/

/-- `strings.Index(s, c)` for a one-character needle: index of the first
occurrence of `c` in `s`, or `none` (Go: `-1`). -/
def goIndex : List Char → Char → Option Nat
  | [], _ => none
  | x :: xs, c => if x = c then some 0 else (goIndex xs c).map (· + 1)

/-- `strings.LastIndex(s, c)` for a one-character needle: index of the last
occurrence of `c` in `s`, or `none` (Go: `-1`). -/
def goLastIndex : List Char → Char → Option Nat
  | [], _ => none
  | x :: xs, c =>
    match goLastIndex xs c with
    | some i => some (i + 1)
    | none => if x = c then some 0 else none

/-- `strings.HasPrefix(s, p)`: `pfxOf p s` is true iff `p` is a prefix of
`s`. -/
def pfxOf : List Char → List Char → Bool
  | [], _ => true
  | _ :: _, [] => false
  | a :: as, b :: bs => a == b && pfxOf as bs

/-- `strings.HasSuffix(s, p)`: true iff `p` is a suffix of `s`. -/
def sfxOf (p s : List Char) : Bool := pfxOf p.reverse s.reverse

/-- Go string slicing `s[i:]`: defined for `i ≤ len(s)`, a runtime panic
(`none`) otherwise. -/
def goSliceFrom (s : List Char) (i : Nat) : Option (List Char) :=
  if i ≤ s.length then some (s.drop i) else none

/-! ## `processStatusMatch` (daemonfinder.go)

The Go source checks a `/proc/<pid>/stat` line against a process name and a
parent-PID text:

```
idx := strings.Index(statline, " "); if idx < 0 { return false }
idx += 2
lastidx := strings.LastIndex(statline[idx:], ")"); if lastidx < 0 { return false }
if statline[idx:idx+lastidx] != name { return false }
idx += lastidx + 2
if idx > len(statline) { return false }
lastidx = strings.Index(statline[idx:], " "); if lastidx < 0 { return false }
return strings.HasPrefix(statline[idx+lastidx+1:], ppidtext)
```

`statline[idx:]` after the first step is the only slice whose bounds are not
guarded; all later slices are in range whenever they are reached (for
`statline[idx:idx+lastidx]` we have `idx ≤ len` from the preceding slice and
`idx+lastidx ≤ len` because `lastidx` is an index into `statline[idx:]`;
that slice is written below as `s1.take lastidx`). -/
def processStatusMatch (statline name ppidtext : List Char) : Option Bool :=
  match goIndex statline ' ' with
  | none => some false
  | some idx0 =>
    match goSliceFrom statline (idx0 + 2) with
    | none => none
    | some s1 =>
      match goLastIndex s1 ')' with
      | none => some false
      | some lastidx =>
        if s1.take lastidx ≠ name then some false
        else
          let idx := idx0 + 2 + lastidx + 2
          if idx > statline.length then some false
          else
            let s2 := statline.drop idx
            match goIndex s2 ' ' with
            | none => some false
            | some j => some (pfxOf ppidtext (s2.drop (j + 1)))

/-! ## `strconv.ParseUint` and `strings.Fields`

`parseUint s base bitSize` models Go's `strconv.ParseUint(s, base, bitSize)`
for an explicit base: the string must be non-empty and consist of digits
valid for the base (no sign, no `0x`, no underscores with an explicit base),
and the value must fit into `bitSize` bits; any violation is an error
(`none`). -/

/-- Value of one digit character under the given base, or `none` if the
character is not a digit of that base. -/
def digitVal (base : Nat) (c : Char) : Option Nat :=
  if '0' ≤ c ∧ c ≤ '9' then
    let d := c.toNat - '0'.toNat
    if d < base then some d else none
  else if 'a' ≤ c ∧ c ≤ 'z' then
    let d := c.toNat - 'a'.toNat + 10
    if d < base then some d else none
  else if 'A' ≤ c ∧ c ≤ 'Z' then
    let d := c.toNat - 'A'.toNat + 10
    if d < base then some d else none
  else none

/-- Digit accumulation loop of `strconv.ParseUint`. -/
def parseUintLoop (base : Nat) : List Char → Nat → Option Nat
  | [], acc => some acc
  | c :: cs, acc =>
    match digitVal base c with
    | none => none
    | some d => parseUintLoop base cs (acc * base + d)

/-- `strconv.ParseUint(s, base, bitSize)`. -/
def parseUint (s : List Char) (base bitSize : Nat) : Option Nat :=
  if s = [] then none
  else
    match parseUintLoop base s 0 with
    | none => none
    | some v => if v < 2 ^ bitSize then some v else none

/-- `unicode.IsSpace` restricted to the ASCII range relevant for procfs
lines: space, tab, newline, vertical tab, form feed, carriage return. -/
def goIsSpace (c : Char) : Bool :=
  c = ' ' || c = '\t' || c = '\n' || c.toNat = 11 || c.toNat = 12 || c = '\r'

/-- Accumulator loop for `strings.Fields`. -/
def goFieldsAux : List Char → List Char → List (List Char)
  | [], acc => if acc.isEmpty then [] else [acc.reverse]
  | c :: cs, acc =>
    if goIsSpace c then
      if acc.isEmpty then goFieldsAux cs [] else acc.reverse :: goFieldsAux cs []
    else goFieldsAux cs (c :: acc)

/-- `strings.Fields(s)`: split `s` around runs of whitespace. -/
def goFields (s : List Char) : List (List Char) := goFieldsAux s []

/-! ## `/proc/<pid>/net/unix` scanning (sockfinder.go) -/

/-- Field index constants of sockfinder.go (`netUnix...Field`). -/
def netUnixFlagsField : Nat := 3

def netUnixTypeField : Nat := 4

def netUnixInodeField : Nat := 6

def netUnixPathField : Nat := 7

/-- `soAcceptCon`: state bit mask identifying listening unix domain
sockets (`1 << 16`). -/
def soAcceptCon : Nat := 2 ^ 16

/-- `sockStream`: type enumeration value of streaming sockets. -/
def sockStream : Nat := 1

/-- Insertion `m[k] = v` into a Go map modelled as an association list with
unique keys: replace in place, or append if the key is absent. -/
def mapSet {α : Type} (m : List (Nat × α)) (k : Nat) (v : α) : List (Nat × α) :=
  match m with
  | [] => [(k, v)]
  | (k', v') :: rest => if k' = k then (k, v) :: rest else (k', v') :: mapSet rest k v

/-- Go map read `m[k]`. -/
def mapLookup {α : Type} (m : List (Nat × α)) (k : Nat) : Option α :=
  match m with
  | [] => none
  | (k', v) :: rest => if k' = k then some v else mapLookup rest k

/-- One iteration of the scanner loop in `listeningUDSVisibleToProcess`:
split the line into whitespace-separated fields; skip it when it has too few
fields, names an abstract-namespace socket (path starting with `@`), has an
unparsable flags/type/inode field, or is not a listening stream socket;
otherwise yield the socket's inode and path. The Go code's deep copy of the
path only detaches it from the scanner's buffer and has no value-level
effect. -/
def lineEntry (line : List Char) : Option (Nat × List Char) :=
  let fields := goFields line
  if fields.length ≤ netUnixPathField then none
  else
    let path := fields.getD netUnixPathField []
    if path ≠ [] ∧ path.getD 0 ' ' = '@' then none
    else
      match parseUint (fields.getD netUnixFlagsField []) 16 32 with
      | none => none
      | some flags =>
        match parseUint (fields.getD netUnixTypeField []) 16 16 with
        | none => none
        | some soxtype =>
          if soxtype ≠ sockStream ∨ flags ≠ soAcceptCon then none
          else
            match parseUint (fields.getD netUnixInodeField []) 10 64 with
            | none => none
            | some ino => some (ino, path)

/-- `listeningUDSVisibleToProcess` over the abstracted procfs: the input is
the line list of `/proc/<pid>/net/unix`, or `none` when the file cannot be
opened (Go then returns a nil map, observationally the empty map). -/
def listeningUDSVisibleToProcess (netunix : Option (List (List Char))) :
    List (Nat × List Char) :=
  match netunix with
  | none => []
  | some lines =>
    lines.foldl
      (fun sox line =>
        match lineEntry line with
        | none => sox
        | some (ino, path) => mapSet sox ino path)
      []

/-! ## Raw socket fds (sockfinder.go) -/

/-- `rawSocketFd`: an fd number and the referenced socket inode, both kept
in raw string form. -/
structure rawSocketFd where
  fd : List Char
  socketino : List Char
deriving DecidableEq, Repr

/-- One `/proc/<pid>/fd/` directory entry: the entry name and the readlink
result for it (`none` = readlink error). -/
structure FdEntry where
  name : List Char
  linksto : Option (List Char)
deriving DecidableEq, Repr

/-- `socketFdPrefix = "socket:["` (renamed `Pfx` here). -/
def socketFdPfx : List Char := "socket:[".data

def socketFdPfxLen : Nat := socketFdPfx.length

/-- Loop body of `rawSocketFdsOfProcess`: keep entries whose readlink target
starts with `socket:[` and is longer than that literal; the inode text is
`linksto[socketFdPrefixLen : len(linksto)-1]`, i.e. everything after the
literal with the final character cut off ("always assuming the procfs isn't
returning crappy entries"). -/
def rawSocketFdsLoop : List FdEntry → List rawSocketFd
  | [] => []
  | fd :: rest =>
    match fd.linksto with
    | none => rawSocketFdsLoop rest
    | some linksto =>
      if ¬ pfxOf socketFdPfx linksto = true ∨ linksto.length = socketFdPfxLen then
        rawSocketFdsLoop rest
      else
        ⟨fd.name, (linksto.drop socketFdPfxLen).dropLast⟩ :: rawSocketFdsLoop rest

/-- `rawSocketFdsOfProcess` over the abstracted procfs: the input is the fd
directory listing, or `none` when `/proc/<pid>/fd` cannot be read (Go then
fails with a wrapped error, e.g. access denied). -/
def rawSocketFdsOfProcess (fdDir : Option (List FdEntry)) : Option (List rawSocketFd) :=
  match fdDir with
  | none => none
  | some fds => some (rawSocketFdsLoop fds)

/-- The specification's reading of `rawSocketFdsOfProcess` (spec §4.1 and
C6): keep exactly those entries whose target begins with `socket:[` AND ends
with `]`, with the inode number the substring between those delimiters. -/
def rawSocketFdsClaim (fdDir : Option (List FdEntry)) : Option (List rawSocketFd) :=
  match fdDir with
  | none => none
  | some fds =>
    some (fds.filterMap (fun fd =>
      match fd.linksto with
      | none => none
      | some t =>
        if pfxOf socketFdPfx t && sfxOf "]".data t then
          some ⟨fd.name, (t.drop socketFdPfxLen).dropLast⟩
        else none))

/-- Amended reading: keep exactly those entries whose target begins with
`socket:[` and is strictly longer than that literal (the trailing `]` is
assumed rather than checked), with the inode text the substring between the
literal and the final character. -/
def rawSocketFdsAmended (fdDir : Option (List FdEntry)) : Option (List rawSocketFd) :=
  match fdDir with
  | none => none
  | some fds =>
    some (fds.filterMap (fun fd =>
      match fd.linksto with
      | none => none
      | some t =>
        if pfxOf socketFdPfx t && socketFdPfxLen < t.length then
          some ⟨fd.name, (t.drop socketFdPfxLen).dropLast⟩
        else none))

/-! ## `deleteAndZeroFunc` (delete.go) -/

/-- `slices.IndexFunc`: index of the first element satisfying the
predicate. -/
def indexFunc {E : Type} : List E → (E → Bool) → Option Nat
  | [], _ => none
  | v :: rest, del => if del v then some 0 else (indexFunc rest del).map (· + 1)

/-- The compaction loop of `deleteAndZeroFunc`
(`for j := i+1; ...; if !del(v) { s[i] = v; i++ }`): the first list is the
already-compacted prefix `s[:i]`, the second the not-yet-scanned rest; a
write `s[i] = v` appends the survivor to the prefix. Writes only ever land
at positions at or below the read index, so each read `s[j]` still sees the
original element. -/
def compactLoop {E : Type} (del : E → Bool) : List E → List E → List E
  | acc, [] => acc
  | acc, v :: rest =>
    if del v then compactLoop del acc rest else compactLoop del (acc ++ [v]) rest

/-- `deleteAndZeroFunc(s, del)`: like `slices.DeleteFunc` but also zeroing
the freed tail of the backing array. The zeroing (`s[j] = zero` for
`j ∈ [i, len)`) touches only elements beyond the returned slice `s[:i]` and
therefore has no value-level effect here. -/
def deleteAndZeroFunc {E : Type} (s : List E) (del : E → Bool) : List E :=
  match indexFunc s del with
  | none => s
  | some i => compactLoop del (s.take i) (s.drop (i + 1))

/-- The standard `slices.DeleteFunc` filtering semantics: all elements for
which `del` is false, in their original order. -/
def sliceDeleteFuncSemantics {E : Type} (s : List E) (del : E → Bool) : List E :=
  s.filter (fun x => !del x)

/-! ## The socket-activator tracker (socketActivatorProcess, in delete.go)

The tracker's mutex-serialized state is embedded as a record passed and
returned explicitly. The two fields `inserted` and `dispatched` are ghost
histories (each recorded inode, in order) that no behaviour depends on:
`inserted` logs every insertion into the observed set, `dispatched` logs
every inode handed to `activateAndStartWatch`. The xxhash over the raw fd
list and the listening-socket map are inputs (an `ActivatorScan`), since
they are read from procfs; an unchanged socket configuration yields the
identical scan and hence the identical hash. -/

/-- State of `socketActivatorProcess`: the stored configuration hash and the
observed-socket-inode set (plus ghost histories). A fresh tracker
(`newSocketActivator`) has the Go zero hash and an empty observed set. -/
structure SocketActivatorState where
  hash : Nat
  observed : List Nat
  inserted : List Nat
  dispatched : List Nat
deriving DecidableEq, Repr

/-- `newSocketActivator`: zero hash, empty observed set. -/
def initialActivator : SocketActivatorState := ⟨0, [], [], []⟩

/-- One tick's procfs snapshot for an activator: whether
`rawSocketFdsWithHash` succeeded, the computed hash, and the intersected
listening-socket map `listeningUDSPaths(rawsocketfds, ...)` (inode →
path). -/
structure ActivatorScan where
  fdsOk : Bool
  hash : Nat
  sox : List (Nat × String)
deriving DecidableEq, Repr

/-- `sox[ino]` presence test. -/
def soxHasKey (sox : List (Nat × String)) (ino : Nat) : Bool :=
  sox.any (fun p => p.1 == ino)

/-- The discovery loop of `discoverAPIPaths`: walk the current listening
sockets; inodes already observed are skipped, new ones are immediately
inserted into the observed set ("immediately block so no double watcher
creation") and collected as newly discovered paths. -/
def discoverLoop : List (Nat × String) → List Nat → List (Nat × String) →
    List Nat × List (Nat × String)
  | [], observed, newpaths => (observed, newpaths)
  | (ino, path) :: rest, observed, newpaths =>
    if observed.contains ino then discoverLoop rest observed newpaths
    else discoverLoop rest (observed ++ [ino]) (newpaths ++ [(ino, path)])

/-- `discoverAPIPaths(rawsocketfds, hash)`: `none` (Go: nil) and an
unchanged state when the supplied hash equals the stored hash; otherwise
store the new hash, prune observed inodes that are no longer listening, and
return the newly seen listening sockets after inserting them into the
observed set. The Go double-checked lock (hash compared again after
reacquiring the mutex) collapses to the single check in this serialized
embedding. -/
def discoverAPIPaths (s : SocketActivatorState) (hash : Nat) (sox : List (Nat × String)) :
    Option (List (Nat × String)) × SocketActivatorState :=
  if hash = s.hash then (none, s)
  else
    let pruned := s.observed.filter (fun ino => soxHasKey sox ino)
    let (observed, newpaths) := discoverLoop sox pruned []
    (some newpaths,
      { s with
        hash := hash
        observed := observed
        inserted := s.inserted ++ newpaths.map Prod.fst })

/-- Dispatch condition in `activateAndWatch`: some activated-engine finder
plugin's API endpoint suffix matches the path (`slices.IndexFunc` over the
plugin list), and the wormhole symlink resolution
(`procfsroot.EvalSymlinks`) succeeds; otherwise the loop `continue`s without
dispatching. -/
def dispatchable (suffixes : List String) (evalOk : String → Bool) (api : String) : Bool :=
  suffixes.any (fun sfx => sfxOf sfx.data api.data) && evalOk api

/-- `activateAndWatch(apis, ...)`: for each newly discovered API endpoint
that matches a plugin suffix and resolves through the wormhole, spawn an
`activateAndStartWatch` task. The spawned inodes are the returned dispatch
list, recorded in the ghost history. -/
def activateAndWatch (suffixes : List String) (evalOk : String → Bool)
    (s : SocketActivatorState) (apis : List (Nat × String)) :
    SocketActivatorState × List (Nat × String) :=
  let dispatches := apis.filter (fun p => dispatchable suffixes evalOk p.2)
  ({ s with dispatched := s.dispatched ++ dispatches.map Prod.fst }, dispatches)

/-- `(socketActivatorProcess).update(wg)`: abort the tick on a raw-fd read
error; return without dispatching when `discoverAPIPaths` yields nil; else
dispatch the newly discovered endpoints. -/
def activatorUpdate (suffixes : List String) (evalOk : String → Bool)
    (s : SocketActivatorState) (scan : ActivatorScan) :
    SocketActivatorState × List (Nat × String) :=
  if ¬ scan.fdsOk = true then (s, [])
  else
    match discoverAPIPaths s scan.hash scan.sox with
    | (none, s) => (s, [])
    | (some newapis, s) => activateAndWatch suffixes evalOk s newapis

/-- A tracker after a sequence of `update` ticks, starting from
`newSocketActivator`'s state. -/
def activatorRun (suffixes : List String) (evalOk : String → Bool)
    (scans : List ActivatorScan) : SocketActivatorState :=
  scans.foldl (fun s scan => (activatorUpdate suffixes evalOk s scan).1) initialActivator

/-! ## The TurtleFinder registry (turtlefinder.go, watch.go)

The finder's mutex-serialized state becomes a record; a `Containers` call
becomes a function of the state, the supplied process table, and a
`CallEnv` describing every external outcome of the call (watcher factory
results, activator procfs snapshots, activation results, per-engine
container queries). Go's nil engine map left behind by `Close` is the
`none` value of `engines`; an assignment to an entry of that nil map is a
Go runtime panic, modelled as an overall `none` result. Goroutines of one
call are executed in their spawn order; the activation outcome callbacks
(`createdWatcherFn`), which Go may run any time after dispatch, are executed
at dispatch time — one admissible interleaving, since `update` can wait for
them within its time box. -/

/-- The `Engine` record of engine.go (in the turtlefinder package sources):
it couples a workload watcher with identity data and a latched, single-shot
`Done chan struct{}` that the supervising goroutine spawned by `NewEngine`
closes — once — when the watch terminates (also closing the watcher).
`epid` is the engine process PID reported by the embedded watcher
(`w.PID()`; the registry and descriptor PID), and `done` records whether
the `Done` channel has been closed. The remaining struct fields — `ID`,
`Version`, `PPIDHint` and the embedded `watcher.Watcher` itself — are
identity/descriptor values obtained from the watcher that no registry claim
reads, so they carry no value-level state here. -/
structure Engine where
  epid : Nat
  done : Bool
deriving DecidableEq, Repr

/-- `(*Engine).IsAlive()` (engine.go): the non-blocking `select` on the
`Done` channel — false once `Done` is closed, true otherwise. -/
def Engine.IsAlive (e : Engine) : Bool := !e.done

/-- One row of the externally supplied process table: PID and command
name. -/
structure GoProc where
  pid : Nat
  name : String
deriving DecidableEq, Repr

/-- The engine registry `map[model.PIDType][]*Engine`. -/
abbrev EngineMap := List (Nat × List Engine)

/-- The finder's guarded state: the engine registry (`none` is the nil map
after `Close`), the activator registry, and two ghost histories: the PIDs of
every process table supplied so far and every watcher PID delivered through
the activator `createdWatcherFn` callback. -/
structure TFState where
  engines : Option EngineMap
  activators : List (Nat × SocketActivatorState)
  seenPids : List Nat
  activatedPids : List Nat
deriving DecidableEq, Repr

/-- `New(...)`: empty registries. -/
def initialFinder : TFState := ⟨some [], [], [], []⟩

/-- The static plugin catalogue: daemon-detector process names, activator
process names, and activated-engine API endpoint suffixes. -/
structure Catalog where
  daemonNames : List String
  activatorNames : List String
  suffixes : List String

/-- External outcomes of one `Containers` call. -/
structure CallEnv where
  procs : List GoProc
  newWatchers : Nat → Nat
  scanOf : Nat → ActivatorScan
  evalOk : String → Bool
  actResult : Nat → Nat → Option Nat
  containersOf : Nat → List Nat

/-- `procs[pid] != nil` on the supplied process table. -/
def procsHas (procs : List GoProc) (pid : Nat) : Bool :=
  procs.any (fun p => p.pid == pid)

/-- Engine half of `prune`: for every registry key whose process has
vanished from the table, drop the engines that are no longer alive
(`deleteAndZeroFunc` with a predicate that also `Close`s each dead engine —
closing is idempotent and has no registry-level effect), and drop the key
once no engines remain. -/
def pruneEngines (procs : List GoProc) : EngineMap → EngineMap
  | [] => []
  | (pid, engines) :: rest =>
    if procsHas procs pid then (pid, engines) :: pruneEngines procs rest
    else
      let engines := deleteAndZeroFunc engines (fun e => !e.IsAlive)
      if engines.length = 0 then pruneEngines procs rest
      else (pid, engines) :: pruneEngines procs rest

/-- `prune(procs)`: prune engine watchers (a no-op range over the nil map
after `Close`), then drop activators whose process has vanished. -/
def prune (procs : List GoProc) (f : TFState) : TFState :=
  { f with
    engines := f.engines.map (pruneEngines procs)
    activators := f.activators.filter (fun a => procsHas procs a.1) }

/-- Reading `f.engines[pid]` also when the map is nil (a nil Go map read
just reports the key as absent). -/
def nilMapLookup (engines : Option EngineMap) (pid : Nat) : Option (List Engine) :=
  match engines with
  | none => none
  | some m => mapLookup m pid

/-- The per-watcher registration of `updateDaemons`
(`f.engines[pid] = append(f.engines[pid], eng)` once per watcher returned by
`NewWatchers`): each new watcher becomes a live engine record under the
engine process's PID. Assigning into the nil map after `Close` is a Go
runtime panic (`none`). -/
def addWatchers (engines : Option EngineMap) (pid : Nat) : Nat → Option (Option EngineMap)
  | 0 => some engines
  | Nat.succ n =>
    match engines with
    | none => none
    | some m =>
      let cur := (mapLookup m pid).getD []
      addWatchers (some (mapSet m pid (cur ++ [⟨pid, false⟩]))) pid n

/-- The per-process goroutines of `updateDaemons`, run in spawn order: for
each new engine process, register the watchers its detector factory
returns. -/
def updateDaemonsLoop (env : CallEnv) :
    Option EngineMap → List GoProc → Option (Option EngineMap)
  | engines, [] => some engines
  | engines, p :: rest =>
    match addWatchers engines p.pid (env.newWatchers p.pid) with
    | none => none
    | some engines => updateDaemonsLoop env engines rest

/-- `updateDaemons`: select the table rows whose name matches a daemon
detector plugin, drop those whose PID is already registered, then register
the new watchers. -/
def updateDaemons (cat : Catalog) (env : CallEnv) (f : TFState) : Option TFState :=
  let engineprocs := env.procs.filter (fun p => cat.daemonNames.any (fun n => n == p.name))
  let newengineprocs := engineprocs.filter (fun p => (nilMapLookup f.engines p.pid).isNone)
  (updateDaemonsLoop env f.engines newengineprocs).map (fun engines => { f with engines := engines })

/-- First half of `updateActivators`: register a fresh tracker for every
activator-named table row whose PID is not yet known. -/
def registerActivators (procs : List GoProc) (cat : Catalog)
    (acts : List (Nat × SocketActivatorState)) : List (Nat × SocketActivatorState) :=
  (procs.filter (fun p => cat.activatorNames.any (fun n => n == p.name))).foldl
    (fun acts p => if (mapLookup acts p.pid).isSome then acts else mapSet acts p.pid initialActivator)
    acts

/-- Outcome delivery for the dispatches of one activator tick: a failed
activation only reports an error (no callback); a successful one runs
`createdWatcherFn`, which replaces the registry entry of the reported
watcher PID with the single new engine —
`f.engines[pid] = []*Engine{NewEngine(...)}` — panicking on the nil map
after `Close`. The delivered watcher PIDs are recorded in the ghost
history. -/
def applyOutcomes (env : CallEnv) (apid : Nat) :
    List (Nat × String) → Option EngineMap → List Nat → Option (Option EngineMap × List Nat)
  | [], engines, delivered => some (engines, delivered)
  | (ino, _) :: rest, engines, delivered =>
    match env.actResult apid ino with
    | none => applyOutcomes env apid rest engines delivered
    | some wpid =>
      match engines with
      | none => none
      | some m =>
        applyOutcomes env apid rest (some (mapSet m wpid [⟨wpid, false⟩])) (delivered ++ [wpid])

/-- Second half of `updateActivators`: tick every known activator
(`activator.update(wg)`) and deliver the outcomes of its dispatches. -/
def updateActivatorsLoop (cat : Catalog) (env : CallEnv) :
    List (Nat × SocketActivatorState) → Option EngineMap → List Nat →
    Option (List (Nat × SocketActivatorState) × Option EngineMap × List Nat)
  | [], engines, delivered => some ([], engines, delivered)
  | (apid, s) :: rest, engines, delivered =>
    match activatorUpdate cat.suffixes env.evalOk s (env.scanOf apid) with
    | (s, dispatches) =>
      match applyOutcomes env apid dispatches engines delivered with
      | none => none
      | some (engines, delivered) =>
        match updateActivatorsLoop cat env rest engines delivered with
        | none => none
        | some (acts, engines, delivered) => some ((apid, s) :: acts, engines, delivered)

/-- `updateActivators(procs, wg)`. -/
def updateActivators (cat : Catalog) (env : CallEnv) (f : TFState) : Option TFState :=
  let acts := registerActivators env.procs cat f.activators
  match updateActivatorsLoop cat env acts f.engines f.activatedPids with
  | none => none
  | some (acts, engines, delivered) =>
    some { f with activators := acts, engines := engines, activatedPids := delivered }

/-- The PID keys of the engine registry. -/
def engineKeys (f : TFState) : List Nat := (f.engines.getD []).map Prod.fst

/-- `Containers(ctx, procs, pidmap)`: prune, update, snapshot all engines,
and fan out the per-engine container queries. `stackEngines` (not among the
given sources) only annotates container labels per spec §4.10 and neither
adds nor removes containers, so it is the identity on this value-level
result; the early empty-engine return and a failed worker-pool acquisition
likewise return the (possibly partial) accumulated list, which cannot
change the result's emptiness after `Close`. The supplied table's PIDs are
recorded in the ghost history. -/
def Containers (cat : Catalog) (env : CallEnv) (f : TFState) : Option (TFState × List Nat) :=
  let f := { f with seenPids := f.seenPids ++ env.procs.map GoProc.pid }
  let f := prune env.procs f
  match updateDaemons cat env f with
  | none => none
  | some f =>
    match updateActivators cat env f with
    | none => none
    | some f =>
      let allEngines := ((f.engines.getD []).map Prod.snd).flatten
      some (f, (allEngines.map (fun e => env.containersOf e.epid)).flatten)

/-- `Close()`: close every watcher and set the engine registry to nil. The
activator registry is left untouched. -/
def Close (f : TFState) : TFState := { f with engines := none }

/-- `Engines()`: one descriptor per registered engine whose `Done` channel
is not yet closed (the `select` with `default` skips closed ones). -/
def Engines (f : TFState) : List Engine :=
  (((f.engines.getD []).map Prod.snd).flatten).filter Engine.IsAlive

/-- `EngineCount()`: `len(f.engines)` — the number of keys of the engine
registry map (0 for the nil map after `Close`). -/
def EngineCount (f : TFState) : Nat :=
  match f.engines with
  | none => 0
  | some m => m.length

/-- The `i`-th engine record under registry key `pid` terminates: its
supervising goroutine closes the `Done` latch. -/
def markDone (pid i : Nat) (m : EngineMap) : EngineMap :=
  m.map (fun kv =>
    if kv.1 = pid then
      (kv.1, kv.2.mapIdx (fun j e => if j = i then { e with done := true } else e))
    else kv)

/-- Externally visible events driving a finder. -/
inductive FinderEvent where
  | call (env : CallEnv)
  | close
  | engineTerm (pid : Nat) (i : Nat)

/-- One event step. A `call` that panics (nil-map assignment) aborts the
whole run. -/
def finderStep (cat : Catalog) (f : TFState) : FinderEvent → Option TFState
  | .call env => (Containers cat env f).map Prod.fst
  | .close => some (Close f)
  | .engineTerm pid i => some { f with engines := f.engines.map (markDone pid i) }

/-- A finder run from a given state. -/
def finderRunFrom (cat : Catalog) : TFState → List FinderEvent → Option TFState
  | f, [] => some f
  | f, ev :: rest =>
    match finderStep cat f ev with
    | none => none
    | some f => finderRunFrom cat f rest

/-- A finder run from `New(...)`'s state. -/
def finderRun (cat : Catalog) (events : List FinderEvent) : Option TFState :=
  finderRunFrom cat initialFinder events

/-! ## Theorems: deleteAndZeroFunc (C9) -/

theorem compactLoop_eq_filter {E : Type} (del : E → Bool) :
    ∀ (rest acc : List E), compactLoop del acc rest = acc ++ rest.filter (fun x => !del x) := by
  intro rest
  induction rest with
  | nil => intro acc; simp [compactLoop]
  | cons v rest ih =>
    intro acc
    by_cases h : del v = true
    · simp [compactLoop, h, ih]
    · simp only [Bool.not_eq_true] at h
      simp [compactLoop, h, ih]

theorem indexFunc_none_filter {E : Type} (del : E → Bool) :
    ∀ s : List E, indexFunc s del = none → s.filter (fun x => !del x) = s := by
  intro s
  induction s with
  | nil => intro _; rfl
  | cons v rest ih =>
    intro h
    by_cases hv : del v = true
    · simp [indexFunc, hv] at h
    · simp only [Bool.not_eq_true] at hv
      simp [indexFunc, hv, Option.map_eq_none'] at h
      simp [List.filter, hv, ih h]

theorem indexFunc_some_filter {E : Type} (del : E → Bool) :
    ∀ (s : List E) (i : Nat), indexFunc s del = some i →
      s.filter (fun x => !del x) = s.take i ++ (s.drop (i + 1)).filter (fun x => !del x) := by
  intro s
  induction s with
  | nil => intro i h; simp [indexFunc] at h
  | cons v rest ih =>
    intro i h
    by_cases hv : del v = true
    · simp [indexFunc, hv] at h
      subst h
      simp [List.filter, hv]
    · simp only [Bool.not_eq_true] at hv
      simp [indexFunc, hv] at h
      obtain ⟨j, hj, rfl⟩ := h
      simp [List.filter, hv, ih j hj]

/-- C9: for every slice `s` and every (pure, deterministic) predicate `del`,
`deleteAndZeroFunc(s, del)` returns exactly the elements of `s` for which
`del` is false, in their original order — the standard `slices.DeleteFunc`
filtering semantics — even though the compaction loop may evaluate `del`
twice on some elements. -/
theorem deleteAndZeroFunc_agrees_deleteFunc {E : Type} (del : E → Bool) (s : List E) :
    deleteAndZeroFunc s del = sliceDeleteFuncSemantics s del := by
  unfold deleteAndZeroFunc sliceDeleteFuncSemantics
  cases h : indexFunc s del with
  | none => exact (indexFunc_none_filter del s h).symm
  | some i =>
    show compactLoop del (s.take i) (s.drop (i + 1)) = s.filter (fun x => !del x)
    rw [compactLoop_eq_filter, indexFunc_some_filter del s i h]

/-! ## Theorems: processStatusMatch (C4, C5) -/

theorem goIndex_append_cons (c : Char) :
    ∀ (xs ys : List Char), c ∉ xs → goIndex (xs ++ c :: ys) c = some xs.length := by
  intro xs
  induction xs with
  | nil => intro ys _; simp [goIndex]
  | cons x xs ih =>
    intro ys h
    have hx : ¬ x = c := by intro heq; subst heq; exact h (List.mem_cons_self x xs)
    have hrec := ih ys (fun hc => h (List.mem_cons_of_mem x hc))
    simp [goIndex, hx, hrec]

theorem goLastIndex_eq_none (c : Char) :
    ∀ l : List Char, c ∉ l → goLastIndex l c = none := by
  intro l
  induction l with
  | nil => intro _; rfl
  | cons x xs ih =>
    intro h
    have hx : ¬ x = c := by intro heq; subst heq; exact h (List.mem_cons_self x xs)
    have hrec := ih (fun hc => h (List.mem_cons_of_mem x hc))
    simp [goLastIndex, hrec, hx]

theorem goLastIndex_append_cons (c : Char) :
    ∀ (xs ys : List Char), c ∉ ys → goLastIndex (xs ++ c :: ys) c = some xs.length := by
  intro xs
  induction xs with
  | nil =>
    intro ys h
    simp [goLastIndex, goLastIndex_eq_none c ys h]
  | cons x xs ih =>
    intro ys h
    simp [goLastIndex, ih ys h]

/-- Structural behaviour of `processStatusMatch` on a stat line of the shape
`<pid> (<comm>) <state> <tail>`: the command is everything between the first
`" ("` and the last `")"` on the line (so `comm` may itself contain `)`),
compared for equality with `name`; the state field (of any width without
blanks) is skipped, and `ppidtext` is compared as a prefix of the text
starting at field #4. -/
theorem processStatusMatch_structured
    (pidtxt comm st tail name ppidtext : List Char)
    (hpid : ' ' ∉ pidtxt) (hst1 : ')' ∉ st) (hst2 : ' ' ∉ st) (htail : ')' ∉ tail) :
    processStatusMatch (pidtxt ++ ' ' :: '(' :: (comm ++ ')' :: ' ' :: (st ++ ' ' :: tail)))
        name ppidtext
      = some ((comm == name) && pfxOf ppidtext tail) := by
  have h1 : goIndex (pidtxt ++ ' ' :: '(' :: (comm ++ ')' :: ' ' :: (st ++ ' ' :: tail))) ' '
      = some pidtxt.length := goIndex_append_cons ' ' pidtxt _ hpid
  have hA : pidtxt ++ ' ' :: '(' :: (comm ++ ')' :: ' ' :: (st ++ ' ' :: tail))
      = (pidtxt ++ [' ', '(']) ++ (comm ++ ')' :: ' ' :: (st ++ ' ' :: tail)) := by
    simp
  have hlenA : (pidtxt ++ [' ', '(']).length = pidtxt.length + 2 := by simp
  have hdrop1 : (pidtxt ++ ' ' :: '(' :: (comm ++ ')' :: ' ' :: (st ++ ' ' :: tail))).drop
      (pidtxt.length + 2) = comm ++ ')' :: ' ' :: (st ++ ' ' :: tail) := by
    rw [hA, ← hlenA, List.drop_left]
  have hlen : (pidtxt ++ ' ' :: '(' :: (comm ++ ')' :: ' ' :: (st ++ ' ' :: tail))).length
      = pidtxt.length + 2 + comm.length + 2 + st.length + 1 + tail.length := by
    simp; omega
  have h2 : goSliceFrom (pidtxt ++ ' ' :: '(' :: (comm ++ ')' :: ' ' :: (st ++ ' ' :: tail)))
      (pidtxt.length + 2) = some (comm ++ ')' :: ' ' :: (st ++ ' ' :: tail)) := by
    unfold goSliceFrom
    rw [if_pos (by omega), hdrop1]
  have h3 : goLastIndex (comm ++ ')' :: ' ' :: (st ++ ' ' :: tail)) ')' = some comm.length := by
    apply goLastIndex_append_cons
    intro hc
    rcases List.mem_cons.mp hc with h | h
    · exact absurd h (by decide)
    · rcases List.mem_append.mp h with h | h
      · exact hst1 h
      · rcases List.mem_cons.mp h with h | h
        · exact absurd h (by decide)
        · exact htail h
  have h4 : (comm ++ ')' :: ' ' :: (st ++ ' ' :: tail)).take comm.length = comm :=
    List.take_left comm _
  have hB : pidtxt ++ ' ' :: '(' :: (comm ++ ')' :: ' ' :: (st ++ ' ' :: tail))
      = (pidtxt ++ [' ', '('] ++ comm ++ [')', ' ']) ++ (st ++ ' ' :: tail) := by
    simp
  have hlenB : (pidtxt ++ [' ', '('] ++ comm ++ [')', ' ']).length
      = pidtxt.length + 2 + comm.length + 2 := by
    simp; omega
  have hdrop2 : (pidtxt ++ ' ' :: '(' :: (comm ++ ')' :: ' ' :: (st ++ ' ' :: tail))).drop
      (pidtxt.length + 2 + comm.length + 2) = st ++ ' ' :: tail := by
    rw [hB, ← hlenB, List.drop_left]
  have h5 : goIndex (st ++ ' ' :: tail) ' ' = some st.length :=
    goIndex_append_cons ' ' st tail hst2
  have h6 : (st ++ ' ' :: tail).drop (st.length + 1) = tail := by
    have : st ++ ' ' :: tail = (st ++ [' ']) ++ tail := by simp
    rw [this]
    have : (st ++ [' ']).length = st.length + 1 := by simp
    rw [← this, List.drop_left]
  unfold processStatusMatch
  rw [h1]
  simp only
  rw [h2]
  simp only
  rw [h3]
  simp only
  rw [h4]
  by_cases hcomm : comm = name
  · rw [if_neg (by simpa using hcomm)]
    rw [if_neg (by omega : ¬ pidtxt.length + 2 + comm.length + 2 >
      (pidtxt ++ ' ' :: '(' :: (comm ++ ')' :: ' ' :: (st ++ ' ' :: tail))).length)]
    simp only [hdrop2]
    rw [h5]
    simp only [h6]
    simp [hcomm]
  · rw [if_pos (by simpa using hcomm)]
    simp [hcomm]

/-- C4: `processStatusMatch` takes the command field of a stat line as
everything between the first `" ("` and the last `")"` on the line, compares
it for equality with the sought name, then skips the state field and
compares the given PPID text against field #4 (as the leading text of the
line's remainder); in particular
`processStatusMatch "42 (duhkr;)-) spectrum 1 " "duhkr;)-" "1"` is true and
`processStatusMatch "42 (duhkr) zx81 666 " "duhkr" "1"` is false. -/
theorem processStatusMatch_spec :
    (∀ pidtxt comm st tail name ppidtext : List Char,
      ' ' ∉ pidtxt → ')' ∉ st → ' ' ∉ st → ')' ∉ tail →
      processStatusMatch (pidtxt ++ ' ' :: '(' :: (comm ++ ')' :: ' ' :: (st ++ ' ' :: tail)))
          name ppidtext
        = some ((comm == name) && pfxOf ppidtext tail)) ∧
    processStatusMatch "42 (duhkr;)-) spectrum 1 ".data "duhkr;)-".data "1".data = some true ∧
    processStatusMatch "42 (duhkr) zx81 666 ".data "duhkr".data "1".data = some false :=
  ⟨processStatusMatch_structured, by decide, by decide⟩

/-- Witness for C4: the structural part applied at a concrete stat line. -/
theorem processStatusMatch_spec_witness :
    processStatusMatch ("42".data ++ ' ' :: '(' ::
        ("duhkr".data ++ ')' :: ' ' :: ("S".data ++ ' ' :: "1 7".data)))
      "duhkr".data "1".data = some true := by
  rw [processStatusMatch_spec.1 "42".data "duhkr".data "S".data "1 7".data "duhkr".data "1".data
    (by decide) (by decide) (by decide) (by decide)]
  decide

/-- C5 counterexample: on the truncated stat line `"1 "` (first space as
final character) the slice `statline[idx:]` with `idx = 3 > len = 2` is out
of range — in Go a runtime panic, not a `false` result. -/
theorem processStatusMatch_panic_counterexample :
    processStatusMatch "1 ".data "x".data "1".data = none := by decide

/-- C5 amended: `processStatusMatch` performs an out-of-range slice (a
panic) exactly on those lines whose first space is closer than two
characters to the end of the line; on every other line — including all
other malformed or truncated lines — it returns a boolean without
out-of-range indexing. -/
theorem processStatusMatch_safety :
    ∀ statline name ppidtext : List Char,
      processStatusMatch statline name ppidtext = none ↔
        ∃ i, goIndex statline ' ' = some i ∧ statline.length < i + 2 := by
  intro s n p
  cases hg : goIndex s ' ' with
  | none => simp [processStatusMatch, hg]
  | some i =>
    by_cases hle : i + 2 ≤ s.length
    · have hnlt : ¬ s.length < i + 2 := by omega
      simp only [processStatusMatch, goSliceFrom, hg, if_pos hle, Option.some.injEq]
      have hrhs : ¬ ∃ j, i = j ∧ s.length < j + 2 := by
        rintro ⟨j, rfl, hj⟩
        omega
      rw [iff_false_intro hrhs, iff_false]
      cases h3 : goLastIndex (s.drop (i + 2)) ')' with
      | none => simp [h3]
      | some lastidx =>
        simp only [h3]
        by_cases hname : (s.drop (i + 2)).take lastidx = n
        · simp only [hname, ne_eq, not_true_eq_false, if_false]
          by_cases hgt : i + 2 + lastidx + 2 > s.length
          · simp [hgt]
          · simp only [hgt, if_false]
            cases goIndex (s.drop (i + 2 + lastidx + 2)) ' ' with
            | none => simp
            | some j => simp
        · simp [hname]
    · have hlt : s.length < i + 2 := by omega
      simp [processStatusMatch, goSliceFrom, hg, hle, hlt]

/-! ## Theorems: rawSocketFdsOfProcess (C6) -/

theorem pfxOf_length_le : ∀ p s : List Char, pfxOf p s = true → p.length ≤ s.length := by
  intro p
  induction p with
  | nil => intro s _; simp
  | cons a as ih =>
    intro s h
    cases s with
    | nil => simp [pfxOf] at h
    | cons b bs =>
      simp only [pfxOf, Bool.and_eq_true] at h
      have := ih bs h.2
      simp only [List.length_cons]
      omega

/-- The fd directory listing of the C6 counterexample: one fd whose
readlink target starts with `socket:[` but does not end with `]`. -/
def fdDirNoBracket : List FdEntry := [⟨"3".data, some "socket:[1X".data⟩]

/-- C6 counterexample: on a procfs state with one fd whose readlink target
is `socket:[1X` — which begins with `socket:[` but does not end with `]` —
the code still returns the entry (with inode text `1`), while the claim's
"exactly those … ending with `]`" reading returns nothing. -/
theorem rawSocketFds_bracket_counterexample :
    rawSocketFdsOfProcess (some fdDirNoBracket) = some [⟨"3".data, "1".data⟩] ∧
      rawSocketFdsClaim (some fdDirNoBracket) = some [] ∧
      rawSocketFdsOfProcess (some fdDirNoBracket) ≠ rawSocketFdsClaim (some fdDirNoBracket) := by
  refine ⟨by decide, by decide, by decide⟩

/-- C6 amended: `rawSocketFdsOfProcess` returns exactly those fd entries
whose symlink target begins with the literal `socket:[` and is strictly
longer than that literal (the trailing `]` is assumed rather than checked),
pairing each fd name with the substring between the literal and the final
character, and it returns an error when the process's fd directory cannot
be read. -/
theorem rawSocketFds_amended_correct :
    ∀ fdDir, rawSocketFdsOfProcess fdDir = rawSocketFdsAmended fdDir := by
  intro fdDir
  cases fdDir with
  | none => rfl
  | some fds =>
    simp only [rawSocketFdsOfProcess, rawSocketFdsAmended, Option.some.injEq]
    induction fds with
    | nil => rfl
    | cons fd rest ih =>
      cases hl : fd.linksto with
      | none => simp [rawSocketFdsLoop, List.filterMap_cons, hl, ih]
      | some t =>
        by_cases hp : pfxOf socketFdPfx t = true
        · by_cases hlen : t.length = socketFdPfxLen
          · have hnlt : ¬ socketFdPfxLen < t.length := by omega
            simp [rawSocketFdsLoop, hl, hp, hlen, List.filterMap_cons, hnlt, ih]
          · have h8 : socketFdPfxLen ≤ t.length := pfxOf_length_le _ _ hp
            have hlt : socketFdPfxLen < t.length := by omega
            simp [rawSocketFdsLoop, hl, hp, hlen, List.filterMap_cons, hlt, ih]
        · simp [rawSocketFdsLoop, hl, hp, List.filterMap_cons, ih]

/-! ## Theorems: listeningUDSVisibleToProcess (C7) -/

theorem beginsWithAt_iff (path : List Char) :
    (path ≠ [] ∧ path.getD 0 ' ' = '@') ↔ pfxOf ['@'] path = true := by
  cases path with
  | nil => simp [pfxOf]
  | cons c cs =>
    simp [pfxOf]
    exact eq_comm

/-- C7: a `/proc/<pid>/net/unix` line is split on runs of whitespace
(`goFields`); a socket line — one with enough fields and parsable
flags/type/inode fields — contributes its inode-to-path entry if and only
if its type field equals the stream type (1), its flags field equals the
LISTENING bit (`0x10000`), and its path does not begin with `@`; and on
failure to open the file the empty map is returned. -/
theorem listeningUDS_inclusion :
    (∀ (line : List Char) (flags typ ino : Nat),
      netUnixPathField < (goFields line).length →
      parseUint ((goFields line).getD netUnixFlagsField []) 16 32 = some flags →
      parseUint ((goFields line).getD netUnixTypeField []) 16 16 = some typ →
      parseUint ((goFields line).getD netUnixInodeField []) 10 64 = some ino →
      (lineEntry line = some (ino, (goFields line).getD netUnixPathField []) ↔
        (typ = sockStream ∧ flags = soAcceptCon ∧
          pfxOf ['@'] ((goFields line).getD netUnixPathField []) = false))) ∧
    listeningUDSVisibleToProcess none = [] := by
  constructor
  · intro line flags typ ino hlen hflags htyp hino
    have hnle : ¬ (goFields line).length ≤ netUnixPathField := by omega
    simp only [lineEntry, if_neg hnle, hflags, htyp, hino]
    by_cases hat : ((goFields line).getD netUnixPathField [] ≠ [] ∧
        ((goFields line).getD netUnixPathField []).getD 0 ' ' = '@')
    · have hp : pfxOf ['@'] ((goFields line).getD netUnixPathField []) = true :=
        (beginsWithAt_iff _).mp hat
      rw [if_pos hat]
      constructor
      · intro h; exact Option.noConfusion h
      · rintro ⟨-, -, h3⟩
        rw [hp] at h3
        exact Bool.noConfusion h3
    · have hpfx : pfxOf ['@'] ((goFields line).getD netUnixPathField []) = false := by
        cases hb : pfxOf ['@'] ((goFields line).getD netUnixPathField []) with
        | false => rfl
        | true => exact absurd ((beginsWithAt_iff _).mpr hb) hat
      rw [if_neg hat]
      by_cases hskip : typ ≠ sockStream ∨ flags ≠ soAcceptCon
      · rw [if_pos hskip]
        constructor
        · intro h; exact Option.noConfusion h
        · rintro ⟨h1, h2, -⟩
          rcases hskip with h | h
          · exact absurd h1 h
          · exact absurd h2 h
      · rw [if_neg hskip]
        push_neg at hskip
        simp only [hino, Option.some.injEq, Prod.mk.injEq]
        constructor
        · intro _; exact ⟨hskip.1, hskip.2, hpfx⟩
        · intro _; trivial
  · rfl

/-- A concrete multi-space-padded listening-stream-socket line for the C7
witness. -/
def udsWitnessLine : List Char :=
  "0000000000000000: 00000002 00000000 00010000 0001 01  29692 /run/docker.sock".data

/-- Witness for C7: the inclusion criterion applied to a concrete padded
line. -/
theorem listeningUDS_inclusion_witness :
    lineEntry udsWitnessLine
      = some (29692, (goFields udsWitnessLine).getD netUnixPathField []) :=
  (listeningUDS_inclusion.1 udsWitnessLine 65536 1 29692
      (by decide) (by decide) (by decide) (by decide)).mpr
    ⟨by decide, by decide, by decide⟩

/-! ## Theorems: the socket-activator tracker (C1, C8) -/

theorem discoverLoop_shape :
    ∀ (sox : List (Nat × String)) (obs : List Nat) (acc : List (Nat × String)),
      ∃ L, discoverLoop sox obs acc = (obs ++ L.map Prod.fst, acc ++ L) ∧
        ∀ x ∈ L, x.1 ∉ obs ∧ x ∈ sox := by
  intro sox
  induction sox with
  | nil =>
    intro obs acc
    exact ⟨[], by simp [discoverLoop], by simp⟩
  | cons p rest ih =>
    intro obs acc
    obtain ⟨ino, path⟩ := p
    by_cases h : obs.contains ino = true
    · obtain ⟨L, hL, hmem⟩ := ih obs acc
      refine ⟨L, ?_, ?_⟩
      · simp only [discoverLoop]
        rw [if_pos h]
        exact hL
      · intro x hx
        exact ⟨(hmem x hx).1, List.mem_cons_of_mem _ (hmem x hx).2⟩
    · obtain ⟨L, hL, hmem⟩ := ih (obs ++ [ino]) (acc ++ [(ino, path)])
      refine ⟨(ino, path) :: L, ?_, ?_⟩
      · simp only [discoverLoop]
        rw [if_neg h, hL]
        simp
      · intro x hx
        rcases List.mem_cons.mp hx with rfl | hx
        · refine ⟨?_, List.mem_cons_self _ _⟩
          intro hc
          exact h (List.elem_iff.mpr hc)
        · refine ⟨?_, List.mem_cons_of_mem _ (hmem x hx).2⟩
          intro hc
          exact (hmem x hx).1 (List.mem_append_left _ hc)

/-- Per-tick behaviour of the tracker state for a fixed inode: the update
either leaves the state unchanged, or prunes the observed set and extends
`observed` and the ghost `inserted` by the same newly seen keys while
dispatching a subset of exactly those keys. -/
theorem activatorUpdate_step (suffixes : List String) (evalOk : String → Bool)
    (s : SocketActivatorState) (scan : ActivatorScan) :
    (activatorUpdate suffixes evalOk s scan).1 = s ∧
        (activatorUpdate suffixes evalOk s scan).2 = [] ∨
      ∃ K D,
        (activatorUpdate suffixes evalOk s scan).1.observed
            = s.observed.filter (fun ino => soxHasKey scan.sox ino) ++ K ∧
          (activatorUpdate suffixes evalOk s scan).1.inserted = s.inserted ++ K ∧
          (activatorUpdate suffixes evalOk s scan).1.dispatched = s.dispatched ++ D ∧
          (activatorUpdate suffixes evalOk s scan).2.map Prod.fst = D ∧
          List.Sublist D K ∧
          (∀ k ∈ K, soxHasKey scan.sox k = true ∧
            k ∉ s.observed.filter (fun ino => soxHasKey scan.sox ino)) := by
  by_cases hok : scan.fdsOk = true
  · by_cases hh : scan.hash = s.hash
    · left
      simp [activatorUpdate, hok, discoverAPIPaths, hh]
    · right
      obtain ⟨L, hL, hmem⟩ :=
        discoverLoop_shape scan.sox (s.observed.filter (fun ino => soxHasKey scan.sox ino)) []
      refine ⟨L.map Prod.fst, ((L.filter (fun p => dispatchable suffixes evalOk p.2)).map Prod.fst),
        ?_, ?_, ?_, ?_, ?_, ?_⟩
      · simp [activatorUpdate, hok, discoverAPIPaths, hh, hL, activateAndWatch]
      · simp [activatorUpdate, hok, discoverAPIPaths, hh, hL, activateAndWatch]
      · simp [activatorUpdate, hok, discoverAPIPaths, hh, hL, activateAndWatch]
      · simp [activatorUpdate, hok, discoverAPIPaths, hh, hL, activateAndWatch]
      · exact List.Sublist.map Prod.fst (List.filter_sublist L)
      · intro k hk
        rcases List.mem_map.mp hk with ⟨x, hx, rfl⟩
        refine ⟨?_, (hmem x hx).1⟩
        have hxs : x ∈ scan.sox := (hmem x hx).2
        simp only [soxHasKey, List.any_eq_true]
        exact ⟨x, hxs, by simp⟩
  · left
    simp [activatorUpdate, hok]

theorem mem_filter_soxHasKey (observed : List Nat) (sox : List (Nat × String)) (ino : Nat)
    (h1 : ino ∈ observed) (h2 : soxHasKey sox ino = true) :
    ino ∈ observed.filter (fun i => soxHasKey sox i) :=
  List.mem_filter.mpr ⟨h1, h2⟩

/-- The tracker invariant behind C1's amendment: the ghost dispatch history
never counts an inode more often than the ghost insertion history, and every
currently observed inode has been inserted. -/
theorem activatorRun_invariant (suffixes : List String) (evalOk : String → Bool)
    (scans : List ActivatorScan) (ino : Nat) :
    (activatorRun suffixes evalOk scans).dispatched.count ino ≤
        (activatorRun suffixes evalOk scans).inserted.count ino ∧
      (ino ∈ (activatorRun suffixes evalOk scans).observed →
        ino ∈ (activatorRun suffixes evalOk scans).inserted) := by
  suffices h : ∀ s : SocketActivatorState,
      s.dispatched.count ino ≤ s.inserted.count ino →
      (ino ∈ s.observed → ino ∈ s.inserted) →
      (scans.foldl (fun s scan => (activatorUpdate suffixes evalOk s scan).1) s).dispatched.count ino ≤
          (scans.foldl (fun s scan => (activatorUpdate suffixes evalOk s scan).1) s).inserted.count ino ∧
        (ino ∈ (scans.foldl (fun s scan => (activatorUpdate suffixes evalOk s scan).1) s).observed →
          ino ∈ (scans.foldl (fun s scan => (activatorUpdate suffixes evalOk s scan).1) s).inserted) by
    exact h initialActivator (by simp [initialActivator]) (by simp [initialActivator])
  induction scans with
  | nil => intro s h1 h2; exact ⟨h1, h2⟩
  | cons scan rest ih =>
    intro s h1 h2
    simp only [List.foldl_cons]
    apply ih
    · rcases activatorUpdate_step suffixes evalOk s scan with ⟨heq, -⟩ | ⟨K, D, _, hins, hdis, _, hDK, -⟩
      · rw [heq]; exact h1
      · rw [hins, hdis, List.count_append, List.count_append]
        have := (List.Sublist.count_le hDK ino)
        omega
    · rcases activatorUpdate_step suffixes evalOk s scan with ⟨heq, -⟩ | ⟨K, D, hobs, hins, _, _, _, -⟩
      · rw [heq]; exact h2
      · rw [hobs, hins]
        intro hm
        rcases List.mem_append.mp hm with hm | hm
        · exact List.mem_append_left _ (h2 (List.mem_of_mem_filter hm))
        · exact List.mem_append_right _ hm

/-- An inode that is currently observed is never among the inodes a next
update dispatches (this holds for every state, reachable or not). -/
theorem activator_no_redispatch (suffixes : List String) (evalOk : String → Bool)
    (s : SocketActivatorState) (scan : ActivatorScan) (ino : Nat)
    (hobs : ino ∈ s.observed) :
    ino ∉ (activatorUpdate suffixes evalOk s scan).2.map Prod.fst := by
  rcases activatorUpdate_step suffixes evalOk s scan with ⟨-, hnil⟩ | ⟨K, D, _, _, _, hD, hDK, hK⟩
  · rw [hnil]; simp
  · rw [hD]
    intro hmem
    have hinK : ino ∈ K := (List.Sublist.subset hDK) hmem
    obtain ⟨hsox, hnf⟩ := hK ino hinK
    exact hnf (mem_filter_soxHasKey s.observed scan.sox ino hobs hsox)

/-- C1 counterexample: with `docker.sock` as the only activated-engine
finder suffix, a single update that discovers a listening socket (inode 5)
at a path matching no finder suffix inserts the inode into the observed set
with zero dispatch attempts — refuting "exactly one dispatch attempt per
observed inode". -/
theorem activator_observed_zero_dispatch_counterexample :
    5 ∈ (activatorRun ["docker.sock"] (fun _ => true)
          [⟨true, 1, [(5, "/run/crazy")]⟩]).observed ∧
      (activatorRun ["docker.sock"] (fun _ => true)
          [⟨true, 1, [(5, "/run/crazy")]⟩]).dispatched.count 5 = 0 :=
  ⟨by decide, by decide⟩

/-- C1 amended: every dispatch attempt for an inode coincides with an
insertion of that inode into the observed set — over the tracker's lifetime
the dispatch history never counts an inode more often than the insertion
history (at most one dispatch per insertion). An inode currently in the
observed set has been inserted at least once but may have zero dispatch
attempts (its path may match no activated-engine finder suffix), and no
further update dispatches it while it remains observed. -/
theorem activator_dispatch_once_per_insertion (suffixes : List String)
    (evalOk : String → Bool) (scans : List ActivatorScan) (ino : Nat) :
    (activatorRun suffixes evalOk scans).dispatched.count ino ≤
        (activatorRun suffixes evalOk scans).inserted.count ino ∧
      (ino ∈ (activatorRun suffixes evalOk scans).observed →
        1 ≤ (activatorRun suffixes evalOk scans).inserted.count ino) ∧
      ∀ scan, ino ∈ (activatorRun suffixes evalOk scans).observed →
        ino ∉ ((activatorUpdate suffixes evalOk
          (activatorRun suffixes evalOk scans) scan).2.map Prod.fst) := by
  obtain ⟨h1, h2⟩ := activatorRun_invariant suffixes evalOk scans ino
  exact ⟨h1, fun hm => List.count_pos_iff.mpr (h2 hm),
    fun scan hm => activator_no_redispatch suffixes evalOk _ scan ino hm⟩

/-- Witness for C1's amendment at a concrete dispatched configuration. -/
theorem activator_dispatch_once_per_insertion_witness :
    (activatorRun ["docker.sock"] (fun _ => true)
          [⟨true, 1, [(5, "/run/docker.sock")]⟩]).dispatched.count 5 ≤
        (activatorRun ["docker.sock"] (fun _ => true)
          [⟨true, 1, [(5, "/run/docker.sock")]⟩]).inserted.count 5 ∧
      1 ≤ (activatorRun ["docker.sock"] (fun _ => true)
          [⟨true, 1, [(5, "/run/docker.sock")]⟩]).inserted.count 5 ∧
      5 ∉ ((activatorUpdate ["docker.sock"] (fun _ => true)
          (activatorRun ["docker.sock"] (fun _ => true)
            [⟨true, 1, [(5, "/run/docker.sock")]⟩])
          ⟨true, 2, [(5, "/run/docker.sock")]⟩).2.map Prod.fst) :=
  have h := activator_dispatch_once_per_insertion ["docker.sock"] (fun _ => true)
    [⟨true, 1, [(5, "/run/docker.sock")]⟩] 5
  ⟨h.1, h.2.1 (by decide), h.2.2 ⟨true, 2, [(5, "/run/docker.sock")]⟩ (by decide)⟩

/-- C8: for an unchanged activator socket configuration — the same procfs
scan and hence the same raw-fd hash as the one already stored — a second
`update` in direct succession dispatches zero new activations and leaves
the tracker state unchanged; in particular `discoverAPIPaths` returns nil
(no new API paths) whenever the supplied hash equals the stored hash. -/
theorem update_unchanged_config_no_dispatch (suffixes : List String)
    (evalOk : String → Bool) (s : SocketActivatorState) (scan : ActivatorScan) :
    (activatorUpdate suffixes evalOk ((activatorUpdate suffixes evalOk s scan).1) scan).2 = [] ∧
      (activatorUpdate suffixes evalOk ((activatorUpdate suffixes evalOk s scan).1) scan).1
        = (activatorUpdate suffixes evalOk s scan).1 ∧
      ∀ sox, (discoverAPIPaths s s.hash sox).1 = none := by
  have hhash : ∀ sox, (discoverAPIPaths s s.hash sox).1 = none := by
    intro sox
    simp [discoverAPIPaths]
  by_cases hok : scan.fdsOk = true
  · have hs1 : ((activatorUpdate suffixes evalOk s scan).1).hash = scan.hash := by
      by_cases hh : scan.hash = s.hash
      · simp [activatorUpdate, hok, discoverAPIPaths, hh]
      · obtain ⟨L, hL, -⟩ := discoverLoop_shape scan.sox
          (s.observed.filter (fun ino => soxHasKey scan.sox ino)) []
        simp [activatorUpdate, hok, discoverAPIPaths, hh, hL, activateAndWatch]
    have hsecond : activatorUpdate suffixes evalOk ((activatorUpdate suffixes evalOk s scan).1) scan
        = ((activatorUpdate suffixes evalOk s scan).1, []) := by
      have hok' : ¬ ¬ scan.fdsOk = true := by simp [hok]
      generalize hT : (activatorUpdate suffixes evalOk s scan).1 = t at hs1 ⊢
      unfold activatorUpdate
      rw [if_neg hok']
      unfold discoverAPIPaths
      rw [if_pos hs1.symm]
    exact ⟨by rw [hsecond], by rw [hsecond], hhash⟩
  · have hfirst : activatorUpdate suffixes evalOk s scan = (s, []) := by
      unfold activatorUpdate
      rw [if_pos hok]
    refine ⟨?_, ?_, hhash⟩
    · rw [hfirst, hfirst]
    · rw [hfirst, hfirst]

/-! ## Theorems: the finder registry (C2, C3, C10) -/

/-- Keys of a possibly-nil engine map. -/
def keysOf (engines : Option EngineMap) : List Nat := (engines.getD []).map Prod.fst

theorem mapSet_keys_subset {α : Type} :
    ∀ (m : List (Nat × α)) (k : Nat) (v : α) (x : Nat),
      x ∈ (mapSet m k v).map Prod.fst → x ∈ m.map Prod.fst ∨ x = k := by
  intro m
  induction m with
  | nil =>
    intro k v x h
    simp [mapSet] at h
    exact Or.inr h
  | cons kv rest ih =>
    intro k v x h
    obtain ⟨k', v'⟩ := kv
    by_cases hk : k' = k
    · simp only [mapSet, if_pos hk, List.map_cons, List.mem_cons] at h
      rcases h with h | h
      · exact Or.inr h
      · exact Or.inl (by simp only [List.map_cons, List.mem_cons]; exact Or.inr h)
    · simp only [mapSet, if_neg hk, List.map_cons, List.mem_cons] at h
      rcases h with h | h
      · exact Or.inl (by simp only [List.map_cons, List.mem_cons]; exact Or.inl h)
      · rcases ih k v x h with h | h
        · exact Or.inl (by simp only [List.map_cons, List.mem_cons]; exact Or.inr h)
        · exact Or.inr h

theorem addWatchers_keys :
    ∀ (n : Nat) (engines : Option EngineMap) (pid : Nat) (engines' : Option EngineMap),
      addWatchers engines pid n = some engines' →
      ∀ x ∈ keysOf engines', x ∈ keysOf engines ∨ x = pid := by
  intro n
  induction n with
  | zero =>
    intro engines pid engines' h x hx
    simp [addWatchers] at h
    subst h
    exact Or.inl hx
  | succ n ih =>
    intro engines pid engines' h x hx
    cases engines with
    | none => simp [addWatchers] at h
    | some m =>
      simp only [addWatchers] at h
      rcases ih _ pid engines' h x hx with h' | h'
      · rcases mapSet_keys_subset m pid _ x (by simpa [keysOf] using h') with h'' | h''
        · exact Or.inl (by simpa [keysOf] using h'')
        · exact Or.inr h''
      · exact Or.inr h'

theorem updateDaemonsLoop_keys (env : CallEnv) :
    ∀ (ps : List GoProc) (engines engines' : Option EngineMap),
      updateDaemonsLoop env engines ps = some engines' →
      ∀ x ∈ keysOf engines', x ∈ keysOf engines ∨ x ∈ ps.map GoProc.pid := by
  intro ps
  induction ps with
  | nil =>
    intro engines engines' h x hx
    simp [updateDaemonsLoop] at h
    subst h
    exact Or.inl hx
  | cons p rest ih =>
    intro engines engines' h x hx
    simp only [updateDaemonsLoop] at h
    cases ha : addWatchers engines p.pid (env.newWatchers p.pid) with
    | none => rw [ha] at h; exact absurd h (by simp)
    | some engines1 =>
      rw [ha] at h
      rcases ih engines1 engines' h x hx with h' | h'
      · rcases addWatchers_keys _ engines p.pid engines1 ha x h' with h'' | h''
        · exact Or.inl h''
        · exact Or.inr (by rw [List.map_cons, h'']; exact List.mem_cons_self _ _)
      · exact Or.inr (by rw [List.map_cons]; exact List.mem_cons_of_mem _ h')

theorem applyOutcomes_keys (env : CallEnv) (apid : Nat) :
    ∀ (ds : List (Nat × String)) (engines : Option EngineMap) (delivered : List Nat)
      (engines' : Option EngineMap) (delivered' : List Nat),
      applyOutcomes env apid ds engines delivered = some (engines', delivered') →
      (∀ x ∈ delivered, x ∈ delivered') ∧
        (∀ x ∈ keysOf engines', x ∈ keysOf engines ∨ x ∈ delivered') := by
  intro ds
  induction ds with
  | nil =>
    intro engines delivered engines' delivered' h
    simp [applyOutcomes] at h
    obtain ⟨h1, h2⟩ := h
    subst h1; subst h2
    exact ⟨fun x hx => hx, fun x hx => Or.inl hx⟩
  | cons d rest ih =>
    intro engines delivered engines' delivered' h
    obtain ⟨ino, path⟩ := d
    simp only [applyOutcomes] at h
    cases hr : env.actResult apid ino with
    | none =>
      rw [hr] at h
      exact ih engines delivered engines' delivered' h
    | some wpid =>
      rw [hr] at h
      cases engines with
      | none => exact absurd h (by simp)
      | some m =>
        obtain ⟨hmono, hkeys⟩ := ih _ _ engines' delivered' h
        constructor
        · intro x hx
          exact hmono x (List.mem_append_left _ hx)
        · intro x hx
          rcases hkeys x hx with h' | h'
          · rcases mapSet_keys_subset m wpid _ x (by simpa [keysOf] using h') with h'' | h''
            · exact Or.inl (by simpa [keysOf] using h'')
            · subst h''
              exact Or.inr (hmono x (List.mem_append_right _ (by simp)))
          · exact Or.inr h'

theorem updateActivatorsLoop_keys (cat : Catalog) (env : CallEnv) :
    ∀ (acts : List (Nat × SocketActivatorState)) (engines : Option EngineMap)
      (delivered : List Nat) (acts' : List (Nat × SocketActivatorState))
      (engines' : Option EngineMap) (delivered' : List Nat),
      updateActivatorsLoop cat env acts engines delivered = some (acts', engines', delivered') →
      (∀ x ∈ delivered, x ∈ delivered') ∧
        (∀ x ∈ keysOf engines', x ∈ keysOf engines ∨ x ∈ delivered') := by
  intro acts
  induction acts with
  | nil =>
    intro engines delivered acts' engines' delivered' h
    simp [updateActivatorsLoop] at h
    obtain ⟨-, h2, h3⟩ := h
    subst h2; subst h3
    exact ⟨fun x hx => hx, fun x hx => Or.inl hx⟩
  | cons a rest ih =>
    intro engines delivered acts' engines' delivered' h
    obtain ⟨apid, s⟩ := a
    simp only [updateActivatorsLoop] at h
    cases hao : applyOutcomes env apid
        (activatorUpdate cat.suffixes env.evalOk s (env.scanOf apid)).2 engines delivered with
    | none =>
      simp only [hao] at h
      exact Option.noConfusion h
    | some r =>
      obtain ⟨engines1, delivered1⟩ := r
      simp only [hao] at h
      cases hloop : updateActivatorsLoop cat env rest engines1 delivered1 with
      | none =>
        simp only [hloop] at h
        exact Option.noConfusion h
      | some r2 =>
        obtain ⟨acts2, engines2, delivered2⟩ := r2
        simp only [hloop] at h
        simp only [Option.some.injEq, Prod.mk.injEq] at h
        obtain ⟨-, h2, h3⟩ := h
        subst h2; subst h3
        obtain ⟨hm1, hk1⟩ := applyOutcomes_keys env apid _ engines delivered engines1 delivered1 hao
        obtain ⟨hm2, hk2⟩ := ih engines1 delivered1 acts2 engines2 delivered2 hloop
        constructor
        · intro x hx
          exact hm2 x (hm1 x hx)
        · intro x hx
          rcases hk2 x hx with h' | h'
          · rcases hk1 x h' with h'' | h''
            · exact Or.inl h''
            · exact Or.inr (hm2 x h'')
          · exact Or.inr h'

theorem pruneEngines_keys (procs : List GoProc) :
    ∀ (m : EngineMap) (x : Nat),
      x ∈ (pruneEngines procs m).map Prod.fst → x ∈ m.map Prod.fst := by
  intro m
  induction m with
  | nil => intro x h; simp [pruneEngines] at h
  | cons kv rest ih =>
    intro x h
    obtain ⟨pid, engines⟩ := kv
    by_cases hp : procsHas procs pid = true
    · simp only [pruneEngines, if_pos hp, List.map_cons, List.mem_cons] at h
      rcases h with h | h
      · simp [h]
      · simp only [List.map_cons, List.mem_cons]
        exact Or.inr (ih x h)
    · simp only [pruneEngines, if_neg hp] at h
      by_cases hz : (deleteAndZeroFunc engines fun e => !e.IsAlive).length = 0
      · rw [if_pos hz] at h
        simp only [List.map_cons, List.mem_cons]
        exact Or.inr (ih x h)
      · rw [if_neg hz] at h
        simp only [List.map_cons, List.mem_cons] at h ⊢
        rcases h with h | h
        · exact Or.inl h
        · exact Or.inr (ih x h)

theorem markDone_keys (pid i : Nat) :
    ∀ m : EngineMap, (markDone pid i m).map Prod.fst = m.map Prod.fst := by
  intro m
  induction m with
  | nil => rfl
  | cons kv rest ih =>
    simp only [markDone, List.map_cons] at ih ⊢
    by_cases hk : kv.1 = pid
    · simp [hk, ih]
    · simp [hk, ih]

theorem filter_filter_map_pid_subset (procs : List GoProc) (q r : GoProc → Bool) :
    ∀ x ∈ ((procs.filter q).filter r).map GoProc.pid, x ∈ procs.map GoProc.pid := by
  intro x hx
  rcases List.mem_map.mp hx with ⟨p, hp, rfl⟩
  exact List.mem_map.mpr ⟨p, List.mem_of_mem_filter (List.mem_of_mem_filter hp), rfl⟩

theorem keysOf_prune (procs : List GoProc) (engines : Option EngineMap) :
    ∀ x ∈ keysOf (engines.map (pruneEngines procs)), x ∈ keysOf engines := by
  intro x hx
  cases engines with
  | none => simp [keysOf] at hx
  | some m => exact pruneEngines_keys procs m x (by simpa [keysOf] using hx)

/-- The key invariant of one `Containers` call: every PID key of the engine
registry after the call was a key before the call, is a PID of the supplied
process table, or was delivered by the socket-activation callback. -/
theorem Containers_keys (cat : Catalog) (env : CallEnv) (f f' : TFState) (res : List Nat)
    (h : Containers cat env f = some (f', res))
    (hinv : ∀ pid, pid ∈ engineKeys f → pid ∈ f.seenPids ∨ pid ∈ f.activatedPids) :
    ∀ pid, pid ∈ engineKeys f' → pid ∈ f'.seenPids ∨ pid ∈ f'.activatedPids := by
  unfold Containers at h
  cases hud : updateDaemons cat env
      (prune env.procs { f with seenPids := f.seenPids ++ env.procs.map GoProc.pid }) with
  | none =>
    simp only [hud] at h
    exact Option.noConfusion h
  | some f3 =>
    simp only [hud] at h
    cases hua : updateActivators cat env f3 with
    | none =>
      simp only [hua] at h
      exact Option.noConfusion h
    | some f4 =>
      simp only [hua] at h
      simp only [Option.some.injEq, Prod.mk.injEq] at h
      obtain ⟨h1, -⟩ := h
      subst h1
      -- decompose updateDaemons
      obtain ⟨e3, hloop3, hf3⟩ : ∃ e3,
          updateDaemonsLoop env
              (prune env.procs { f with seenPids := f.seenPids ++ env.procs.map GoProc.pid }).engines
              (((env.procs.filter (fun p => cat.daemonNames.any (fun n => n == p.name))).filter
                (fun p => (nilMapLookup
                  (prune env.procs
                    { f with seenPids := f.seenPids ++ env.procs.map GoProc.pid }).engines
                  p.pid).isNone))) = some e3 ∧
            f3 = { prune env.procs { f with seenPids := f.seenPids ++ env.procs.map GoProc.pid } with
                    engines := e3 } := by
        simp only [updateDaemons] at hud
        cases hl : updateDaemonsLoop env
            (prune env.procs { f with seenPids := f.seenPids ++ env.procs.map GoProc.pid }).engines
            (((env.procs.filter (fun p => cat.daemonNames.any (fun n => n == p.name))).filter
              (fun p => (nilMapLookup
                (prune env.procs
                  { f with seenPids := f.seenPids ++ env.procs.map GoProc.pid }).engines
                p.pid).isNone))) with
        | none =>
          rw [hl] at hud
          exact Option.noConfusion hud
        | some e3 =>
          rw [hl] at hud
          simp only [Option.map_some', Option.some.injEq] at hud
          exact ⟨e3, rfl, hud.symm⟩
      -- decompose updateActivators
      obtain ⟨acts4, e4, d4, hloop4, hf4⟩ : ∃ acts4 e4 d4,
          updateActivatorsLoop cat env (registerActivators env.procs cat f3.activators)
              f3.engines f3.activatedPids = some (acts4, e4, d4) ∧
            f4 = { f3 with activators := acts4, engines := e4, activatedPids := d4 } := by
        simp only [updateActivators] at hua
        cases hl : updateActivatorsLoop cat env (registerActivators env.procs cat f3.activators)
            f3.engines f3.activatedPids with
        | none =>
          rw [hl] at hua
          exact Option.noConfusion hua
        | some r =>
          obtain ⟨acts4, e4, d4⟩ := r
          rw [hl] at hua
          simp only [Option.some.injEq] at hua
          exact ⟨acts4, e4, d4, rfl, hua.symm⟩
      obtain ⟨hmono, hkeys4⟩ := updateActivatorsLoop_keys cat env _ _ _ _ _ _ hloop4
      intro pid hpid
      have hpid4 : pid ∈ keysOf e4 := by
        rw [hf4] at hpid
        simpa [engineKeys, keysOf] using hpid
      have hseen : f4.seenPids = f.seenPids ++ env.procs.map GoProc.pid := by
        rw [hf4, hf3]
        rfl
      have hact : f4.activatedPids = d4 := by rw [hf4]
      have hact3 : f3.activatedPids = f.activatedPids := by rw [hf3]; rfl
      rcases hkeys4 pid hpid4 with hk | hk
      · -- key survived updateActivators: from updateDaemons
        have hk3 : pid ∈ keysOf e3 := by
          rw [hf3] at hk
          simpa [keysOf] using hk
        rcases updateDaemonsLoop_keys env _ _ _ hloop3 pid hk3 with hk' | hk'
        · -- key survived updateDaemons: from the pruned original registry
          have : pid ∈ keysOf f.engines := by
            have := keysOf_prune env.procs f.engines pid (by simpa [prune, keysOf] using hk')
            exact this
          rcases hinv pid (by simpa [engineKeys, keysOf] using this) with hs | ha
          · exact Or.inl (by rw [hseen]; exact List.mem_append_left _ hs)
          · refine Or.inr ?_
            rw [hact]
            exact hmono pid (by rw [hact3]; exact ha)
        · -- key added by updateDaemons: a PID of the supplied table
          refine Or.inl ?_
          rw [hseen]
          exact List.mem_append_right _ (filter_filter_map_pid_subset env.procs _ _ pid hk')
      · -- key added by an activation callback
        refine Or.inr ?_
        rw [hact]
        exact hk

theorem finderStep_keys (cat : Catalog) (f f' : TFState) (ev : FinderEvent)
    (hstep : finderStep cat f ev = some f')
    (hinv : ∀ pid, pid ∈ engineKeys f → pid ∈ f.seenPids ∨ pid ∈ f.activatedPids) :
    ∀ pid, pid ∈ engineKeys f' → pid ∈ f'.seenPids ∨ pid ∈ f'.activatedPids := by
  cases ev with
  | call env =>
    simp only [finderStep] at hstep
    cases hc : Containers cat env f with
    | none =>
      rw [hc] at hstep
      exact Option.noConfusion hstep
    | some r =>
      obtain ⟨f4, res⟩ := r
      rw [hc] at hstep
      simp only [Option.map_some', Option.some.injEq] at hstep
      subst hstep
      exact Containers_keys cat env f f4 res hc hinv
  | close =>
    simp only [finderStep, Close, Option.some.injEq] at hstep
    subst hstep
    intro pid hpid
    simp [engineKeys] at hpid
  | engineTerm p i =>
    simp only [finderStep, Option.some.injEq] at hstep
    subst hstep
    intro pid hpid
    apply hinv
    have hkeys : engineKeys { f with engines := f.engines.map (markDone p i) } = engineKeys f := by
      cases hf : f.engines with
      | none => simp [engineKeys, hf]
      | some m => simp [engineKeys, hf, markDone_keys p i m]
    rw [hkeys] at hpid
    exact hpid

theorem finderRunFrom_keys (cat : Catalog) :
    ∀ (events : List FinderEvent) (f f' : TFState),
      finderRunFrom cat f events = some f' →
      (∀ pid, pid ∈ engineKeys f → pid ∈ f.seenPids ∨ pid ∈ f.activatedPids) →
      ∀ pid, pid ∈ engineKeys f' → pid ∈ f'.seenPids ∨ pid ∈ f'.activatedPids := by
  intro events
  induction events with
  | nil =>
    intro f f' h hinv
    simp only [finderRunFrom, Option.some.injEq] at h
    subst h
    exact hinv
  | cons ev rest ih =>
    intro f f' h hinv
    simp only [finderRunFrom] at h
    cases hs : finderStep cat f ev with
    | none =>
      rw [hs] at h
      exact Option.noConfusion h
    | some f1 =>
      rw [hs] at h
      exact ih f1 f' h (finderStep_keys cat f f1 ev hs hinv)

/-- Catalogue for the C2 counterexample: one activator process name and one
activated-engine finder suffix, no daemon detector. -/
def catActivation : Catalog := ⟨[], ["systemd"], ["docker.sock"]⟩

/-- Call environment for the C2 counterexample: the supplied process table
contains only the activator (PID 1); the activator's scan shows one
listening socket (inode 5) at `/run/docker.sock`; activating it succeeds
and the created watcher reports PID 42 — the PID of the freshly spawned
engine daemon, which no supplied process table has ever contained. -/
def envActivation : CallEnv :=
  ⟨[⟨1, "systemd"⟩], fun _ => 0, fun _ => ⟨true, 1, [(5, "/run/docker.sock")]⟩,
    fun _ => true, fun _ _ => some 42, fun _ => []⟩

/-- C2 counterexample: after a single `Containers` call whose process table
contains only PID 1, the engine registry's keys are `[42]` while the ghost
history of all supplied table PIDs is `[1]` — a registry key that is in
neither the current nor any earlier process table, refuting the claim as
stated. -/
theorem containers_registry_pid_counterexample :
    (finderRun catActivation [FinderEvent.call envActivation]).map
        (fun f => (engineKeys f, f.seenPids)) = some ([42], [1]) := by
  decide

/-- C2 amended: after every `Containers` call, every PID key of the engine
registry is a PID of the process table supplied to that or a strictly
earlier call, **or** was reported by a watcher created through the
socket-activation callback (activated daemons' PIDs enter the registry
before appearing in any supplied process table). -/
theorem registry_pids_from_tables_or_activation (cat : Catalog)
    (events : List FinderEvent) (f : TFState)
    (h : finderRun cat events = some f) :
    ∀ pid, pid ∈ engineKeys f → pid ∈ f.seenPids ∨ pid ∈ f.activatedPids :=
  finderRunFrom_keys cat events initialFinder f h
    (by intro pid hp; simp [engineKeys, initialFinder] at hp)

/-- The state after the counterexample call, for the C2 witness. -/
def tfActivation : TFState :=
  (finderRun catActivation [FinderEvent.call envActivation]).getD initialFinder

/-- Witness for C2's amendment at the concrete activation trace. -/
theorem registry_pids_from_tables_or_activation_witness :
    42 ∈ tfActivation.seenPids ∨ 42 ∈ tfActivation.activatedPids :=
  registry_pids_from_tables_or_activation catActivation [FinderEvent.call envActivation]
    tfActivation (by rfl) 42 (by decide)

/-- Catalogue and environments for the C3 failing trace. -/
def catDaemon : Catalog := ⟨["dockerd"], [], []⟩

/-- A `Containers` call after `Close` that detects a new engine process
(PID 7, name matching the daemon detector) whose watcher factory returns
one watcher. -/
def envDaemon : CallEnv :=
  ⟨[⟨7, "dockerd"⟩], fun _ => 1, fun _ => ⟨false, 0, []⟩, fun _ => true,
    fun _ _ => none, fun _ => []⟩

/-- The same call with a watcher factory that returns no watcher. -/
def envDaemonBenign : CallEnv :=
  ⟨[⟨7, "dockerd"⟩], fun _ => 0, fun _ => ⟨false, 0, []⟩, fun _ => true,
    fun _ _ => none, fun _ => []⟩

/-- C3 (code bug): `Close` sets the engine registry to the nil map and
nothing in `Containers` checks for it. A post-`Close` call that creates no
new watcher does return an empty container list, but as soon as discovery
finds a new engine and registers a watcher, the registration
`f.engines[pid] = append(...)` assigns into the nil map — a Go runtime
panic (`none`) instead of the empty result the spec promises. -/
theorem containers_after_close_panics :
    finderRun catDaemon [FinderEvent.close, FinderEvent.call envDaemon] = none ∧
      (Containers catDaemon envDaemonBenign (Close initialFinder)).map Prod.snd = some [] :=
  ⟨by decide, by decide⟩

/-- Catalogue and environment for C10: a containerd-style detector whose
factory returns two watchers (native + CRI) for one engine process. -/
def catContainerd : Catalog := ⟨["containerd"], [], []⟩

def envContainerd : CallEnv :=
  ⟨[⟨9, "containerd"⟩], fun _ => 2, fun _ => ⟨false, 0, []⟩, fun _ => true,
    fun _ _ => none, fun _ => []⟩

/-- C10: `EngineCount` returns the number of PID keys of the engine
registry — a PID with several watchers counts once, and a PID all of whose
engines are done still counts — while `Engines` excludes every engine whose
done channel is closed. Both divergences are realized on reachable states:
after one call that registers two containerd watchers under PID 9,
`EngineCount = 1` but `Engines` has length 2; after both watchers
terminate, `EngineCount = 1` but `Engines` has length 0. -/
theorem engineCount_counts_pid_keys :
    (∀ f : TFState, EngineCount f = (engineKeys f).length) ∧
      (finderRun catContainerd [FinderEvent.call envContainerd]).map
          (fun f => (EngineCount f, (Engines f).length)) = some (1, 2) ∧
      (finderRun catContainerd [FinderEvent.call envContainerd,
            FinderEvent.engineTerm 9 0, FinderEvent.engineTerm 9 1]).map
          (fun f => (EngineCount f, (Engines f).length)) = some (1, 0) := by
  refine ⟨?_, by decide, by decide⟩
  intro f
  cases hf : f.engines with
  | none => simp [EngineCount, engineKeys, hf]
  | some m => simp [EngineCount, engineKeys, hf]

end Turtlefinder
